import Mathlib

/-!
Verification of the Bitcask-style key/value storage engine
(packages `datastore` of this repository) against its specification.

The Go source is shallowly embedded:
* bytes are `Nat` values (always `< 256` when produced by the encoder);
* Go strings are byte lists (`List Nat`);
* `int64`/`int` become `Int`, with explicit two's-complement conversion
  (`% 2^64`) where the code casts through `uint64`;
* fallible operations return `Option` / `Except`;
* the file system is explicit state: an inode table plus a directory
  mapping paths to inodes, so that `os.Rename` (which moves the path
  binding but leaves `file.Name()` of an open handle stale) is modelled
  faithfully.
-/

namespace Datastore

/-- Value-type tag `Str = 0` (`entry.go`, `const Str = iota`). -/
def Str : Nat := 0

/-- Value-type tag `Int = 1` (`entry.go`). -/
def IntTag : Nat := 1

/-- A dynamically typed Go value (`interface{}` holding `string` or `int64`). -/
inductive GoVal where
  | str : List Nat → GoVal
  | int64 : Int → GoVal
deriving DecidableEq, Repr

/-- `e.value.(string)` with the zero default (Go would panic on mismatch;
all uses in this development are on matching values). -/
def strVal : GoVal → List Nat
  | .str s => s
  | .int64 _ => []

/-- `e.value.(int64)` with the zero default. -/
def intVal : GoVal → Int
  | .int64 n => n
  | .str _ => 0

/-- The dynamic type test `_, ok := e.value.(int64)` in `entry.Encode`. -/
def isInt64 : GoVal → Bool
  | .int64 _ => true
  | .str _ => false

/-- The record type of `entry.go`: key, dynamically typed value, type tag. -/
structure entry where
  key : List Nat
  value : GoVal
  valueType : Nat
deriving DecidableEq, Repr

/-- Little-endian encoding of the low `k` bytes of `n`
(`binary.LittleEndian.PutUint32` / `PutUint64`). -/
def lePut : Nat → Nat → List Nat
  | 0, _ => []
  | k + 1, n => n % 256 :: lePut k (n / 256)

/-- Little-endian read of `k` bytes
(`binary.LittleEndian.Uint32` / `Uint64`); missing bytes read as `0`
(the Go functions panic instead; every use site checks the length first). -/
def leRead : Nat → List Nat → Nat
  | 0, _ => 0
  | k + 1, l => l.headD 0 + 256 * leRead k (l.drop 1)

/-- Go `uint64(v)` for an `int64` value: two's-complement bits. -/
def uint64OfInt (v : Int) : Nat := (v % ((2 : Int) ^ 64)).toNat

/-- Go `int64(u)` for a `uint64` value. -/
def int64OfUint (u : Nat) : Int :=
  if u < 2 ^ 63 then (u : Int) else (u : Int) - 2 ^ 64

/-- `entry.Encode` (`entry.go` lines 20-49): little-endian layout
`size ∥ kl ∥ key ∥ tag ∥ vl ∥ value`.  The length fields are written with
`uint32` truncation, the tag is chosen by the dynamic type of the value,
`vl` and the value bytes by the `valueType` field, exactly as in the Go code. -/
def entry.Encode (e : entry) : List Nat :=
  let kl := e.key.length
  let vl := if e.valueType = IntTag then 8 else (strVal e.value).length
  let size := kl + vl + 13
  lePut 4 size ++ lePut 4 kl ++ e.key ++
    [if isInt64 e.value then IntTag else Str] ++ lePut 4 vl ++
    (if e.valueType = IntTag then lePut 8 (uint64OfInt (intVal e.value))
     else strVal e.value)

/-- `entry.Size` (`entry.go` lines 51-57), in `MemoryUnit` ticks
(the multiplication by 8 is in the source). -/
def entry.Size (e : entry) : Int :=
  if e.valueType = IntTag then ((e.key.length + 13 + 8) * 8 : Nat)
  else (((e.key.length + (strVal e.value).length + 13) * 8 : Nat) : Int)

/-- `entry.Decode` (`entry.go` lines 59-82).  `none` models a Go slice-bounds
panic; note the first four bytes (the declared total size) are copied into
`typeBuf` and never used, and any tag other than `Int` takes the string
branch — both faithful to the source. -/
def entry.Decode (input : List Nat) : Option entry :=
  if input.length < 4 then none else
  if input.length < 8 then none else
  let kl := leRead 4 (input.drop 4)
  if input.length < kl + 8 then none else
  let key := (input.drop 8).take kl
  if input.length ≤ kl + 8 then none else
  let typeFlag := (input.drop (kl + 8)).headD 0
  if input.length < kl + 13 then none else
  let vl := leRead 4 (input.drop (kl + 9))
  if typeFlag = IntTag then
    if input.length < kl + 13 + vl then none else
    if vl < 8 then none else
    some ⟨key, GoVal.int64 (int64OfUint (leRead 8 (input.drop (kl + 13)))), IntTag⟩
  else
    if input.length < kl + 13 + vl then none else
    some ⟨key, GoVal.str ((input.drop (kl + 13)).take vl), Str⟩

/-- `bufio.NewReader`'s default buffer size: the reader `Segment.Get`
wraps around the reopened segment file. -/
def readerBufSize : Nat := 4096

/-- The `bufio.Reader` over a regular file of `len` bytes is modelled by
the pair `(consumed, bufEnd)`: bytes `[consumed, bufEnd)` are buffered,
`bufEnd - consumed ≤ bufCap`.  One `fill` slides the buffer and performs
one underlying read, which on a regular file returns everything available
up to the free space: `bufEnd` becomes `min (consumed + bufCap) len`.

`bufPeek` (`bufio.Reader.Peek(n)`, `n ≤ bufCap`): fill until at least `n`
bytes are buffered or the stream is exhausted; does not consume. -/
def bufPeek (bufCap len c b n : Nat) : Option (Nat × Nat) :=
  if b - c ≥ n then some (c, b)
  else if min (c + bufCap) len - c ≥ n then some (c, min (c + bufCap) len)
  else none

/-- `bufio.Reader.Discard(n)`: loop skipping buffered bytes, refilling an
empty buffer, erroring when a refill yields nothing before `n` bytes are
skipped.  Every loop iteration skips at least one byte, so the fuel
`2*n + 2` used at the call sites can never run out before the loop ends. -/
def bufDiscard (bufCap len : Nat) : Nat → Nat → Nat → Nat → Option (Nat × Nat)
  | 0, _, _, _ => none
  | fuel + 1, n, c, b =>
    if n = 0 then some (c, b)
    else if b - c ≠ 0 then
      bufDiscard bufCap len fuel (n - min (b - c) n) (c + min (b - c) n) b
    else if min (c + bufCap) len - c = 0 then none
    else
      bufDiscard bufCap len fuel (n - min (min (c + bufCap) len - c) n)
        (c + min (min (c + bufCap) len - c) n) (min (c + bufCap) len)

/-- `bufio.Reader.ReadByte`: consume one buffered byte, refilling first if
the buffer is empty. -/
def bufReadByte (bufCap len c b : Nat) : Option (Nat × Nat) :=
  if b - c ≠ 0 then some (c + 1, b)
  else if min (c + bufCap) len - c = 0 then none
  else some (c + 1, min (c + bufCap) len)

/-- `bufio.Reader.Read(p)`: a SINGLE read.  With a non-empty buffer it
returns at most the buffered bytes; with an empty buffer it bypasses the
buffer when `len(p) ≥ bufCap` (one direct underlying read) and otherwise
does one fill and copies from it.  It never loops, so it can return fewer
than `len(p)` bytes while more remain in the stream — the short read the
`n != valSize` check in `readValue` turns into an error.  Returns the
byte count and the new reader state.  (For `want = 0` with an empty
buffer Go skips the fill; only the internal `bufEnd` differs, the
returned count and consumed position agree.) -/
def bufRead (bufCap len c b want : Nat) : Nat × Nat × Nat :=
  if b - c ≠ 0 then
    (min want (b - c), c + min want (b - c), b)
  else if want ≥ bufCap then
    (min want (len - c), c + min want (len - c), c + min want (len - c))
  else
    (min want (min (c + bufCap) len - c),
     c + min want (min (c + bufCap) len - c), min (c + bufCap) len)

/-- `readValue` (`entry.go` lines 84-127), with the `bufio.Reader`
modelled explicitly.  Both call sites hand `readValue` a freshly created
reader positioned at the record start (`Segment.Get` builds
`bufio.NewReader(file)` right after seeking — default 4096-byte buffer,
`readerBufSize`), so the reader starts as `(0, 0)` over the remaining
stream `s`.  The successive consumed positions are deterministic
(`keySize+8` after the discard, `+1` after the tag byte, `+4` after the
value-length field), so the peeked fields are read off `s` directly.
`Peek`/`Discard`/`ReadByte` refill as needed and fail only when the
stream is too short, but the string branch issues a single `in.Read`,
which is clamped by the buffer (`bufRead`), and the source errors when
`n != valSize`: a record extending past the buffered window makes
`readValue` fail even though the bytes exist on disk.  In the `Int`
branch the eight value bytes are only `Peek`ed, so they stay unread. -/
def readValue (bufCap : Nat) (s : List Nat) : Option (GoVal × List Nat) :=
  match bufPeek bufCap s.length 0 0 8 with
  | none => none
  | some (c1, b1) =>
    let keySize := leRead 4 (s.drop 4)
    match bufDiscard bufCap s.length (2 * (keySize + 8) + 2) (keySize + 8) c1 b1 with
    | none => none
    | some (c2, b2) =>
      match bufReadByte bufCap s.length c2 b2 with
      | none => none
      | some (c3, b3) =>
        let typeFlag := (s.drop c2).headD 0
        match bufPeek bufCap s.length c3 b3 4 with
        | none => none
        | some (c4, b4) =>
          let valSize := leRead 4 (s.drop c3)
          match bufDiscard bufCap s.length (2 * 4 + 2) 4 c4 b4 with
          | none => none
          | some (c5, b5) =>
            if typeFlag = IntTag then
              match bufPeek bufCap s.length c5 b5 8 with
              | none => none
              | some (c6, _) =>
                some (GoVal.int64 (int64OfUint (leRead 8 (s.drop c6))), s.drop c6)
            else
              if (bufRead bufCap s.length c5 b5 valSize).1 ≠ valSize then none
              else
                some (GoVal.str ((s.drop c5).take valSize),
                  s.drop (bufRead bufCap s.length c5 b5 valSize).2.1)

/-! ### Codec lemmas -/

theorem lePut_length (k n : Nat) : (lePut k n).length = k := by
  induction k generalizing n with
  | zero => rfl
  | succ k ih => simp [lePut, ih]

theorem leRead_lePut (k n : Nat) (r : List Nat) :
    leRead k (lePut k n ++ r) = n % 256 ^ k := by
  induction k generalizing n r with
  | zero => simp [leRead, lePut, pow_zero, Nat.mod_one]
  | succ k ih =>
    simp only [lePut, leRead, List.cons_append, List.headD_cons, List.drop_succ_cons,
      List.drop_zero, ih]
    rw [pow_succ']
    exact (Nat.mod_mul).symm

theorem leRead_lePut_self (k n : Nat) (r : List Nat) (h : n < 256 ^ k) :
    leRead k (lePut k n ++ r) = n := by
  rw [leRead_lePut, Nat.mod_eq_of_lt h]

theorem lePut_append_nil_read (k n : Nat) (h : n < 256 ^ k) :
    leRead k (lePut k n) = n := by
  have := leRead_lePut_self k n [] h
  rwa [List.append_nil] at this

theorem uint64OfInt_lt (v : Int) : uint64OfInt v < 2 ^ 64 := by
  unfold uint64OfInt
  rw [show ((2 : Int) ^ 64) = 18446744073709551616 from by norm_num]
  rw [show ((2 : Nat) ^ 64) = 18446744073709551616 from by norm_num]
  omega

theorem int64OfUint_uint64OfInt (v : Int) (h1 : -(2 ^ 63) ≤ v) (h2 : v < 2 ^ 63) :
    int64OfUint (uint64OfInt v) = v := by
  unfold int64OfUint uint64OfInt
  rw [show ((2 : Int) ^ 64) = 18446744073709551616 from by norm_num]
  rw [show ((2 : Nat) ^ 63) = 9223372036854775808 from by norm_num]
  rw [show ((2 : Int) ^ 63) = 9223372036854775808 from by norm_num] at h1 h2
  split <;> omega

theorem drop_len_append {α} (l₁ l₂ : List α) (n : Nat) (h : l₁.length = n) :
    (l₁ ++ l₂).drop n = l₂ := by
  subst h
  simp

theorem take_len_append {α} (l₁ l₂ : List α) (n : Nat) (h : l₁.length = n) :
    (l₁ ++ l₂).take n = l₁ := by
  subst h
  simp

theorem encode_str_length (key sval : List Nat) :
    (entry.Encode ⟨key, .str sval, Str⟩).length = key.length + sval.length + 13 := by
  simp [entry.Encode, Str, IntTag, strVal, isInt64, lePut_length]
  omega

theorem encode_int_length (key : List Nat) (n : Int) :
    (entry.Encode ⟨key, .int64 n, IntTag⟩).length = key.length + 8 + 13 := by
  simp [entry.Encode, Str, IntTag, strVal, isInt64, lePut_length]
  omega

theorem decode_encode_str (key sval : List Nat) (hk : key.length < 2 ^ 32)
    (hv : sval.length < 2 ^ 32) :
    entry.Decode (entry.Encode ⟨key, .str sval, Str⟩) = some ⟨key, .str sval, Str⟩ := by
  have h32 : (256 : Nat) ^ 4 = 2 ^ 32 := by norm_num
  have hE : entry.Encode ⟨key, .str sval, Str⟩ =
      lePut 4 (key.length + sval.length + 13) ++
        (lePut 4 key.length ++ (key ++ ([Str] ++ (lePut 4 sval.length ++ sval)))) := by
    simp [entry.Encode, Str, IntTag, strVal, isInt64]
  have hlen : (entry.Encode ⟨key, .str sval, Str⟩).length =
      key.length + sval.length + 13 := encode_str_length key sval
  have hd4 : (entry.Encode ⟨key, .str sval, Str⟩).drop 4 =
      lePut 4 key.length ++ (key ++ ([Str] ++ (lePut 4 sval.length ++ sval))) := by
    rw [hE]
    exact drop_len_append _ _ 4 (lePut_length 4 _)
  have hkl_read : leRead 4 ((entry.Encode ⟨key, .str sval, Str⟩).drop 4) = key.length := by
    rw [hd4]
    exact leRead_lePut_self 4 key.length _ (h32 ▸ hk)
  have hd8 : (entry.Encode ⟨key, .str sval, Str⟩).drop 8 =
      key ++ ([Str] ++ (lePut 4 sval.length ++ sval)) := by
    conv_lhs => rw [show (8 : Nat) = 4 + 4 from rfl, ← List.drop_drop, hd4]
    exact drop_len_append _ _ 4 (lePut_length 4 _)
  have hkey : ((entry.Encode ⟨key, .str sval, Str⟩).drop 8).take key.length = key := by
    rw [hd8]
    exact take_len_append _ _ key.length rfl
  have hdkl8 : (entry.Encode ⟨key, .str sval, Str⟩).drop (key.length + 8) =
      [Str] ++ (lePut 4 sval.length ++ sval) := by
    rw [show key.length + 8 = 8 + key.length from by omega, ← List.drop_drop, hd8]
    exact drop_len_append _ _ key.length rfl
  have htag : ((entry.Encode ⟨key, .str sval, Str⟩).drop (key.length + 8)).headD 0
      = Str := by
    rw [hdkl8]
    rfl
  have hdkl9 : (entry.Encode ⟨key, .str sval, Str⟩).drop (key.length + 9) =
      lePut 4 sval.length ++ sval := by
    rw [show key.length + 9 = key.length + 8 + 1 from by omega, ← List.drop_drop, hdkl8]
    rfl
  have hvl_read : leRead 4 ((entry.Encode ⟨key, .str sval, Str⟩).drop (key.length + 9)) =
      sval.length := by
    rw [hdkl9]
    exact leRead_lePut_self 4 sval.length _ (h32 ▸ hv)
  have hdkl13 : (entry.Encode ⟨key, .str sval, Str⟩).drop (key.length + 13) = sval := by
    rw [show key.length + 13 = key.length + 9 + 4 from by omega, ← List.drop_drop, hdkl9]
    exact drop_len_append _ _ 4 (lePut_length 4 _)
  simp only [entry.Decode]
  rw [hkl_read, hkey, htag, hvl_read, hdkl13, hlen]
  rw [if_neg (by omega), if_neg (by omega), if_neg (by omega), if_neg (by omega),
    if_neg (by omega), if_neg (by decide), if_neg (by omega)]
  simp

theorem decode_encode_int (key : List Nat) (n : Int) (hk : key.length < 2 ^ 32)
    (h1 : -(2 ^ 63) ≤ n) (h2 : n < 2 ^ 63) :
    entry.Decode (entry.Encode ⟨key, .int64 n, IntTag⟩) = some ⟨key, .int64 n, IntTag⟩ := by
  have h32 : (256 : Nat) ^ 4 = 2 ^ 32 := by norm_num
  have hE : entry.Encode ⟨key, .int64 n, IntTag⟩ =
      lePut 4 (key.length + 8 + 13) ++
        (lePut 4 key.length ++ (key ++ ([IntTag] ++ (lePut 4 8 ++
          lePut 8 (uint64OfInt n))))) := by
    simp [entry.Encode, Str, IntTag, strVal, isInt64, intVal]
  have hlen : (entry.Encode ⟨key, .int64 n, IntTag⟩).length = key.length + 8 + 13 :=
    encode_int_length key n
  have hd4 : (entry.Encode ⟨key, .int64 n, IntTag⟩).drop 4 =
      lePut 4 key.length ++ (key ++ ([IntTag] ++ (lePut 4 8 ++
        lePut 8 (uint64OfInt n)))) := by
    rw [hE]
    exact drop_len_append _ _ 4 (lePut_length 4 _)
  have hkl_read : leRead 4 ((entry.Encode ⟨key, .int64 n, IntTag⟩).drop 4) =
      key.length := by
    rw [hd4]
    exact leRead_lePut_self 4 key.length _ (h32 ▸ hk)
  have hd8 : (entry.Encode ⟨key, .int64 n, IntTag⟩).drop 8 =
      key ++ ([IntTag] ++ (lePut 4 8 ++ lePut 8 (uint64OfInt n))) := by
    conv_lhs => rw [show (8 : Nat) = 4 + 4 from rfl, ← List.drop_drop, hd4]
    exact drop_len_append _ _ 4 (lePut_length 4 _)
  have hkey : ((entry.Encode ⟨key, .int64 n, IntTag⟩).drop 8).take key.length = key := by
    rw [hd8]
    exact take_len_append _ _ key.length rfl
  have hdkl8 : (entry.Encode ⟨key, .int64 n, IntTag⟩).drop (key.length + 8) =
      [IntTag] ++ (lePut 4 8 ++ lePut 8 (uint64OfInt n)) := by
    rw [show key.length + 8 = 8 + key.length from by omega, ← List.drop_drop, hd8]
    exact drop_len_append _ _ key.length rfl
  have htag : ((entry.Encode ⟨key, .int64 n, IntTag⟩).drop (key.length + 8)).headD 0
      = IntTag := by
    rw [hdkl8]
    rfl
  have hdkl9 : (entry.Encode ⟨key, .int64 n, IntTag⟩).drop (key.length + 9) =
      lePut 4 8 ++ lePut 8 (uint64OfInt n) := by
    rw [show key.length + 9 = key.length + 8 + 1 from by omega, ← List.drop_drop, hdkl8]
    rfl
  have hvl_read : leRead 4 ((entry.Encode ⟨key, .int64 n, IntTag⟩).drop (key.length + 9))
      = 8 := by
    rw [hdkl9]
    exact leRead_lePut_self 4 8 _ (by norm_num)
  have hdkl13 : (entry.Encode ⟨key, .int64 n, IntTag⟩).drop (key.length + 13) =
      lePut 8 (uint64OfInt n) := by
    rw [show key.length + 13 = key.length + 9 + 4 from by omega, ← List.drop_drop, hdkl9]
    exact drop_len_append _ _ 4 (lePut_length 4 _)
  have hval : leRead 8 ((entry.Encode ⟨key, .int64 n, IntTag⟩).drop (key.length + 13)) =
      uint64OfInt n := by
    rw [hdkl13]
    have hu := uint64OfInt_lt n
    rw [show ((2 : Nat) ^ 64) = 18446744073709551616 from by norm_num] at hu
    have h8 : (256 : Nat) ^ 8 = 18446744073709551616 := by norm_num
    exact lePut_append_nil_read 8 _ (by rw [h8]; exact hu)
  simp only [entry.Decode]
  rw [hkl_read, hkey, htag, hvl_read, hval, hlen]
  rw [if_neg (by omega), if_neg (by omega), if_neg (by omega), if_neg (by omega),
    if_neg (by omega), if_pos rfl, if_neg (by omega), if_neg (by omega)]
  rw [int64OfUint_uint64OfInt n h1 h2]

theorem bufPeek_noFill (C len c b n : Nat) (h : n ≤ b - c) :
    bufPeek C len c b n = some (c, b) := by
  unfold bufPeek
  rw [if_pos h]

theorem bufPeek_fill (C len c b n : Nat) (h0 : b - c < n)
    (h : n ≤ min (c + C) len - c) :
    bufPeek C len c b n = some (c, min (c + C) len) := by
  unfold bufPeek
  rw [if_neg (by omega), if_pos h]

theorem bufReadByte_hit (C len c b : Nat) (h : b - c ≠ 0) :
    bufReadByte C len c b = some (c + 1, b) := by
  unfold bufReadByte
  rw [if_pos h]

theorem bufDiscard_zero (C len f c b : Nat) :
    bufDiscard C len (f + 1) 0 c b = some (c, b) := by
  simp [bufDiscard]

theorem bufDiscard_succ (C len f n c b : Nat) (h0 : n ≠ 0) (hb : b - c ≠ 0) :
    bufDiscard C len (f + 1) n c b =
      bufDiscard C len f (n - min (b - c) n) (c + min (b - c) n) b := by
  conv_lhs => simp only [bufDiscard]
  rw [if_neg h0, if_pos hb]

theorem bufDiscard_single (C len n c b : Nat) (hn : n ≤ b - c) :
    bufDiscard C len (2 * n + 2) n c b = some (c + n, b) := by
  by_cases h0 : n = 0
  · subst h0
    exact bufDiscard_zero C len (2 * 0 + 1) c b
  · have hb : b - c ≠ 0 := by omega
    have hstep := bufDiscard_succ C len (2 * n + 1) n c b h0 hb
    rw [min_eq_right hn, Nat.sub_self] at hstep
    exact hstep.trans (bufDiscard_zero C len (2 * n) (c + n) b)

theorem bufRead_fields (C len c b want : Nat) (hC : 0 < C) (h : want ≤ b - c) :
    (bufRead C len c b want).1 = want ∧ (bufRead C len c b want).2.1 = c + want := by
  unfold bufRead
  by_cases hb : b - c = 0
  · have hw : want = 0 := by omega
    subst hw
    rw [if_neg (by omega), if_neg (by omega)]
    constructor <;> simp
  · rw [if_pos hb]
    constructor <;> simp [min_eq_left h]

theorem bufRead_clamp (C len c b want : Nat) (hb : b - c ≠ 0) :
    (bufRead C len c b want).1 = min want (b - c) := by
  unfold bufRead
  rw [if_pos hb]

/-- The reader states reached while `readValue` parses the fixed
`keySize + 13`-byte header of a record starting the stream: provided the
buffer window covers the header, one fill buffers `min C len` bytes and
the discard, tag byte and value-length field advance `consumed` through
`kl+8`, `kl+9`, `kl+13` without refilling. -/
theorem bufHeaderChain (C len kl : Nat) (h8 : 8 ≤ min C len)
    (hkl : kl + 13 ≤ min C len) :
    bufPeek C len 0 0 8 = some (0, min C len) ∧
    bufDiscard C len (2 * (kl + 8) + 2) (kl + 8) 0 (min C len) =
      some (kl + 8, min C len) ∧
    bufReadByte C len (kl + 8) (min C len) = some (kl + 8 + 1, min C len) ∧
    bufPeek C len (kl + 8 + 1) (min C len) 4 = some (kl + 8 + 1, min C len) ∧
    bufDiscard C len (2 * 4 + 2) 4 (kl + 8 + 1) (min C len) =
      some (kl + 8 + 1 + 4, min C len) := by
  refine ⟨?_, ?_, ?_, ?_, ?_⟩
  · have h := bufPeek_fill C len 0 0 8 (by omega) (by omega)
    simpa using h
  · have h := bufDiscard_single C len (kl + 8) 0 (min C len) (by omega)
    simpa using h
  · exact bufReadByte_hit C len (kl + 8) (min C len) (by omega)
  · exact bufPeek_noFill C len (kl + 8 + 1) (min C len) 4 (by omega)
  · exact bufDiscard_single C len 4 (kl + 8 + 1) (min C len) (by omega)

theorem readValue_encode_str (key sval rest : List Nat)
    (hbuf : key.length + 13 + sval.length ≤ readerBufSize) :
    readValue readerBufSize (entry.Encode ⟨key, .str sval, Str⟩ ++ rest) =
      some (.str sval, rest) := by
  have hC : readerBufSize = 4096 := rfl
  have hk : key.length < 2 ^ 32 := by
    have h232 : (2 : Nat) ^ 32 = 4294967296 := by norm_num
    omega
  have hv : sval.length < 2 ^ 32 := by
    have h232 : (2 : Nat) ^ 32 = 4294967296 := by norm_num
    omega
  have h32 : (256 : Nat) ^ 4 = 2 ^ 32 := by norm_num
  have hE : entry.Encode ⟨key, .str sval, Str⟩ ++ rest =
      lePut 4 (key.length + sval.length + 13) ++
        (lePut 4 key.length ++ (key ++ (Str :: (lePut 4 sval.length ++
          (sval ++ rest))))) := by
    simp [entry.Encode, Str, IntTag, strVal, isInt64]
  have hlen : (entry.Encode ⟨key, .str sval, Str⟩ ++ rest).length =
      key.length + sval.length + 13 + rest.length := by
    rw [List.length_append, encode_str_length]
  have hd4 : (entry.Encode ⟨key, .str sval, Str⟩ ++ rest).drop 4 =
      lePut 4 key.length ++ (key ++ (Str :: (lePut 4 sval.length ++ (sval ++ rest)))) := by
    rw [hE]
    exact drop_len_append _ _ 4 (lePut_length 4 _)
  have hks : leRead 4 ((entry.Encode ⟨key, .str sval, Str⟩ ++ rest).drop 4) =
      key.length := by
    rw [hd4]
    exact leRead_lePut_self 4 key.length _ (h32 ▸ hk)
  have hd8 : (entry.Encode ⟨key, .str sval, Str⟩ ++ rest).drop 8 =
      key ++ (Str :: (lePut 4 sval.length ++ (sval ++ rest))) := by
    conv_lhs => rw [show (8 : Nat) = 4 + 4 from rfl, ← List.drop_drop, hd4]
    exact drop_len_append _ _ 4 (lePut_length 4 _)
  have hdkl8 : (entry.Encode ⟨key, .str sval, Str⟩ ++ rest).drop (key.length + 8) =
      Str :: (lePut 4 sval.length ++ (sval ++ rest)) := by
    rw [show key.length + 8 = 8 + key.length from by omega, ← List.drop_drop, hd8]
    exact drop_len_append _ _ key.length rfl
  have hd9 : (entry.Encode ⟨key, .str sval, Str⟩ ++ rest).drop (key.length + 8 + 1) =
      lePut 4 sval.length ++ (sval ++ rest) := by
    conv_lhs => rw [← List.drop_drop, hdkl8]
    rfl
  have hvl9 : leRead 4 ((entry.Encode ⟨key, .str sval, Str⟩ ++ rest).drop
      (key.length + 8 + 1)) = sval.length := by
    rw [hd9]
    exact leRead_lePut_self 4 sval.length _ (h32 ▸ hv)
  have hd13 : (entry.Encode ⟨key, .str sval, Str⟩ ++ rest).drop (key.length + 8 + 1 + 4) =
      sval ++ rest := by
    conv_lhs => rw [← List.drop_drop, hd9]
    exact drop_len_append _ _ 4 (lePut_length 4 _)
  have htake : ((entry.Encode ⟨key, .str sval, Str⟩ ++ rest).drop
      (key.length + 8 + 1 + 4)).take sval.length = sval := by
    rw [hd13]
    exact take_len_append _ _ sval.length rfl
  have hrest : (entry.Encode ⟨key, .str sval, Str⟩ ++ rest).drop
      (key.length + 8 + 1 + 4 + sval.length) = rest := by
    conv_lhs => rw [← List.drop_drop, hd13]
    exact drop_len_append _ _ sval.length rfl
  have htag : ((entry.Encode ⟨key, .str sval, Str⟩ ++ rest).drop
      (key.length + 8)).headD 0 = Str := by
    simp [hdkl8]
  have hm : key.length + sval.length + 13 ≤
      min readerBufSize (entry.Encode ⟨key, .str sval, Str⟩ ++ rest).length := by
    rw [hlen]
    omega
  obtain ⟨h1, h2, h3, h4, h5⟩ := bufHeaderChain readerBufSize
    (entry.Encode ⟨key, .str sval, Str⟩ ++ rest).length key.length (by omega) (by omega)
  have h6 := bufRead_fields readerBufSize
    (entry.Encode ⟨key, .str sval, Str⟩ ++ rest).length (key.length + 8 + 1 + 4)
    (min readerBufSize (entry.Encode ⟨key, .str sval, Str⟩ ++ rest).length)
    sval.length (by omega) (by omega)
  have hne : ¬ (sval.length ≠ sval.length) := fun h => h rfl
  have c3 : Str ≠ IntTag := by decide
  simp only [readValue, hks, h1, h2, h3, h4, h5, htag, hvl9, if_neg c3, h6.1, h6.2,
    if_neg hne, htake, hrest]

theorem readValue_encode_str_overflow (key sval rest : List Nat)
    (hk21 : key.length + 21 ≤ readerBufSize)
    (hbig : readerBufSize < key.length + 13 + sval.length)
    (hv : sval.length < 2 ^ 32) :
    readValue readerBufSize (entry.Encode ⟨key, .str sval, Str⟩ ++ rest) = none := by
  have hC : readerBufSize = 4096 := rfl
  have hk : key.length < 2 ^ 32 := by
    have h232 : (2 : Nat) ^ 32 = 4294967296 := by norm_num
    omega
  have h32 : (256 : Nat) ^ 4 = 2 ^ 32 := by norm_num
  have hE : entry.Encode ⟨key, .str sval, Str⟩ ++ rest =
      lePut 4 (key.length + sval.length + 13) ++
        (lePut 4 key.length ++ (key ++ (Str :: (lePut 4 sval.length ++
          (sval ++ rest))))) := by
    simp [entry.Encode, Str, IntTag, strVal, isInt64]
  have hlen : (entry.Encode ⟨key, .str sval, Str⟩ ++ rest).length =
      key.length + sval.length + 13 + rest.length := by
    rw [List.length_append, encode_str_length]
  have hd4 : (entry.Encode ⟨key, .str sval, Str⟩ ++ rest).drop 4 =
      lePut 4 key.length ++ (key ++ (Str :: (lePut 4 sval.length ++ (sval ++ rest)))) := by
    rw [hE]
    exact drop_len_append _ _ 4 (lePut_length 4 _)
  have hks : leRead 4 ((entry.Encode ⟨key, .str sval, Str⟩ ++ rest).drop 4) =
      key.length := by
    rw [hd4]
    exact leRead_lePut_self 4 key.length _ (h32 ▸ hk)
  have hd8 : (entry.Encode ⟨key, .str sval, Str⟩ ++ rest).drop 8 =
      key ++ (Str :: (lePut 4 sval.length ++ (sval ++ rest))) := by
    conv_lhs => rw [show (8 : Nat) = 4 + 4 from rfl, ← List.drop_drop, hd4]
    exact drop_len_append _ _ 4 (lePut_length 4 _)
  have hdkl8 : (entry.Encode ⟨key, .str sval, Str⟩ ++ rest).drop (key.length + 8) =
      Str :: (lePut 4 sval.length ++ (sval ++ rest)) := by
    rw [show key.length + 8 = 8 + key.length from by omega, ← List.drop_drop, hd8]
    exact drop_len_append _ _ key.length rfl
  have hd9 : (entry.Encode ⟨key, .str sval, Str⟩ ++ rest).drop (key.length + 8 + 1) =
      lePut 4 sval.length ++ (sval ++ rest) := by
    conv_lhs => rw [← List.drop_drop, hdkl8]
    rfl
  have hvl9 : leRead 4 ((entry.Encode ⟨key, .str sval, Str⟩ ++ rest).drop
      (key.length + 8 + 1)) = sval.length := by
    rw [hd9]
    exact leRead_lePut_self 4 sval.length _ (h32 ▸ hv)
  have htag : ((entry.Encode ⟨key, .str sval, Str⟩ ++ rest).drop
      (key.length + 8)).headD 0 = Str := by
    simp [hdkl8]
  have hm : key.length + 21 ≤
      min readerBufSize (entry.Encode ⟨key, .str sval, Str⟩ ++ rest).length := by
    rw [hlen]
    omega
  obtain ⟨h1, h2, h3, h4, h5⟩ := bufHeaderChain readerBufSize
    (entry.Encode ⟨key, .str sval, Str⟩ ++ rest).length key.length (by omega) (by omega)
  have hclamp := bufRead_clamp readerBufSize
    (entry.Encode ⟨key, .str sval, Str⟩ ++ rest).length (key.length + 8 + 1 + 4)
    (min readerBufSize (entry.Encode ⟨key, .str sval, Str⟩ ++ rest).length)
    sval.length (by omega)
  have hpos : (bufRead readerBufSize
      (entry.Encode ⟨key, .str sval, Str⟩ ++ rest).length (key.length + 8 + 1 + 4)
      (min readerBufSize (entry.Encode ⟨key, .str sval, Str⟩ ++ rest).length)
      sval.length).1 ≠ sval.length := by
    rw [hclamp, hlen]
    omega
  have c3 : Str ≠ IntTag := by decide
  simp only [readValue, hks, h1, h2, h3, h4, h5, htag, hvl9, if_neg c3, if_pos hpos]

theorem readValue_encode_int (key rest : List Nat) (n : Int)
    (hk21 : key.length + 21 ≤ readerBufSize)
    (h1 : -(2 ^ 63) ≤ n) (h2 : n < 2 ^ 63) :
    readValue readerBufSize (entry.Encode ⟨key, .int64 n, IntTag⟩ ++ rest) =
      some (.int64 n, lePut 8 (uint64OfInt n) ++ rest) := by
  have hC : readerBufSize = 4096 := rfl
  have hk : key.length < 2 ^ 32 := by
    have h232 : (2 : Nat) ^ 32 = 4294967296 := by norm_num
    omega
  have h32 : (256 : Nat) ^ 4 = 2 ^ 32 := by norm_num
  have hE : entry.Encode ⟨key, .int64 n, IntTag⟩ ++ rest =
      lePut 4 (key.length + 8 + 13) ++
        (lePut 4 key.length ++ (key ++ (IntTag :: (lePut 4 8 ++
          (lePut 8 (uint64OfInt n) ++ rest))))) := by
    simp [entry.Encode, Str, IntTag, strVal, isInt64, intVal]
  have hlen : (entry.Encode ⟨key, .int64 n, IntTag⟩ ++ rest).length =
      key.length + 8 + 13 + rest.length := by
    rw [List.length_append, encode_int_length]
  have hd4 : (entry.Encode ⟨key, .int64 n, IntTag⟩ ++ rest).drop 4 =
      lePut 4 key.length ++ (key ++ (IntTag :: (lePut 4 8 ++
        (lePut 8 (uint64OfInt n) ++ rest)))) := by
    rw [hE]
    exact drop_len_append _ _ 4 (lePut_length 4 _)
  have hks : leRead 4 ((entry.Encode ⟨key, .int64 n, IntTag⟩ ++ rest).drop 4) =
      key.length := by
    rw [hd4]
    exact leRead_lePut_self 4 key.length _ (h32 ▸ hk)
  have hd8 : (entry.Encode ⟨key, .int64 n, IntTag⟩ ++ rest).drop 8 =
      key ++ (IntTag :: (lePut 4 8 ++ (lePut 8 (uint64OfInt n) ++ rest))) := by
    conv_lhs => rw [show (8 : Nat) = 4 + 4 from rfl, ← List.drop_drop, hd4]
    exact drop_len_append _ _ 4 (lePut_length 4 _)
  have hdkl8 : (entry.Encode ⟨key, .int64 n, IntTag⟩ ++ rest).drop (key.length + 8) =
      IntTag :: (lePut 4 8 ++ (lePut 8 (uint64OfInt n) ++ rest)) := by
    rw [show key.length + 8 = 8 + key.length from by omega, ← List.drop_drop, hd8]
    exact drop_len_append _ _ key.length rfl
  have hd9 : (entry.Encode ⟨key, .int64 n, IntTag⟩ ++ rest).drop (key.length + 8 + 1) =
      lePut 4 8 ++ (lePut 8 (uint64OfInt n) ++ rest) := by
    conv_lhs => rw [← List.drop_drop, hdkl8]
    rfl
  have hvl9 : leRead 4 ((entry.Encode ⟨key, .int64 n, IntTag⟩ ++ rest).drop
      (key.length + 8 + 1)) = 8 := by
    rw [hd9]
    exact leRead_lePut_self 4 8 _ (by norm_num)
  have hd13 : (entry.Encode ⟨key, .int64 n, IntTag⟩ ++ rest).drop (key.length + 8 + 1 + 4) =
      lePut 8 (uint64OfInt n) ++ rest := by
    conv_lhs => rw [← List.drop_drop, hd9]
    exact drop_len_append _ _ 4 (lePut_length 4 _)
  have hu : leRead 8 (lePut 8 (uint64OfInt n) ++ rest) = uint64OfInt n := by
    have hlt := uint64OfInt_lt n
    rw [show ((2 : Nat) ^ 64) = 18446744073709551616 from by norm_num] at hlt
    exact leRead_lePut_self 8 _ _ (by norm_num; omega)
  have htag : ((entry.Encode ⟨key, .int64 n, IntTag⟩ ++ rest).drop
      (key.length + 8)).headD 0 = IntTag := by
    simp [hdkl8]
  have hm : key.length + 21 ≤
      min readerBufSize (entry.Encode ⟨key, .int64 n, IntTag⟩ ++ rest).length := by
    rw [hlen]
    omega
  obtain ⟨hs1, hs2, hs3, hs4, hs5⟩ := bufHeaderChain readerBufSize
    (entry.Encode ⟨key, .int64 n, IntTag⟩ ++ rest).length key.length (by omega) (by omega)
  have hs6 : bufPeek readerBufSize
      (entry.Encode ⟨key, .int64 n, IntTag⟩ ++ rest).length (key.length + 8 + 1 + 4)
      (min readerBufSize (entry.Encode ⟨key, .int64 n, IntTag⟩ ++ rest).length) 8 =
      some (key.length + 8 + 1 + 4,
        min readerBufSize (entry.Encode ⟨key, .int64 n, IntTag⟩ ++ rest).length) :=
    bufPeek_noFill _ _ _ _ _ (by omega)
  simp only [readValue, hks, hs1, hs2, hs3, hs4, hs5, htag, hvl9, eq_self_iff_true,
    if_true, hs6, hd13, hu, int64OfUint_uint64OfInt n h1 h2]

/-! ### The memory-unit helper

`MemoryUnit` with its constants lives in a helper file that is not under
`src/`; only its callers are.  Modelled from the spec: a numeric size
quantity whose canonical accessor `Bytes()` returns bytes (`segment.go`
`IsSurpassed`, `db.go` `recoverSegment`); to be consistent with
`entry.Size`, which multiplies a byte count by 8, one `Byte` is 8 ticks
and `Bytes()` divides by 8 (Go integer division). -/

/-- Modelled from the spec: the `MemoryUnit` numeric type (the helper file
is missing from src/). -/
abbrev MemoryUnit := Int

/-- Modelled from the spec: `MemoryUnit.Bytes()`, the canonical accessor
returning bytes; Go integer (truncated) division. -/
def MemoryUnit.Bytes (m : MemoryUnit) : Int := Int.tdiv m 8

/-- Modelled from the spec: the `Byte` constant (8 ticks, so that
`(n * Byte).Bytes() = n` and `entry.Size` agree). -/
def Byte : MemoryUnit := 8

/-- Modelled from the spec: the `Kilobyte` constant. -/
def Kilobyte : MemoryUnit := 1024 * Byte

/-- Modelled from the spec: the `Megabyte` constant. -/
def Megabyte : MemoryUnit := 1024 * Kilobyte

/-! ### File-system model

Go file handles survive `os.Rename`: the handle keeps writing to the same
inode, while `file.Name()` keeps returning the path given at open time.
The model therefore separates the inode table from the directory. -/

/-- Assoc-list lookup (Go map read). -/
def lookupA {α β : Type} [DecidableEq α] : List (α × β) → α → Option β
  | [], _ => none
  | (k, v) :: t, a => if k = a then some v else lookupA t a

/-- Assoc-list update (Go map write: replace in place or append). -/
def setA {α β : Type} [DecidableEq α] : List (α × β) → α → β → List (α × β)
  | [], a, b => [(a, b)]
  | (k, v) :: t, a, b => if k = a then (a, b) :: t else (k, v) :: setA t a b

/-- Assoc-list removal. -/
def removeA {α β : Type} [DecidableEq α] (m : List (α × β)) (a : α) : List (α × β) :=
  m.filter (fun p => p.1 ≠ a)

/-- An `*os.File`: inode identity, the `Name()` captured at open time
(stale after a rename), and whether the descriptor allows writing. -/
structure GoFile where
  fid : Nat
  name : List Nat
  writable : Bool
deriving DecidableEq, Repr

/-- The file system: contents per inode, directory from path to inode,
next fresh inode. -/
structure FS where
  inodes : List (Nat × List Nat)
  dir : List (List Nat × Nat)
  nextFid : Nat
deriving DecidableEq, Repr

/-- The empty file system. -/
def FS.empty : FS := ⟨[], [], 0⟩

/-- `os.OpenFile(path, O_APPEND|O_WRONLY|O_CREATE, …)`: reuse the existing
inode (keeping its contents) or create an empty one. -/
def FS.openAppendCreate (fs : FS) (path : List Nat) : GoFile × FS :=
  match lookupA fs.dir path with
  | some i => (⟨i, path, true⟩, fs)
  | none =>
    (⟨fs.nextFid, path, true⟩,
     ⟨setA fs.inodes fs.nextFid [], setA fs.dir path fs.nextFid, fs.nextFid + 1⟩)

/-- Contents reachable through a path (`os.Open` + read everything). -/
def FS.readFile (fs : FS) (path : List Nat) : Option (List Nat) :=
  match lookupA fs.dir path with
  | none => none
  | some i => lookupA fs.inodes i

/-- `file.Write` through an open handle: appends to the handle's inode
(wherever the directory now points); fails on a read-only descriptor. -/
def FS.appendHandle (fs : FS) (f : GoFile) (bytes : List Nat) : Option FS :=
  if f.writable then
    match lookupA fs.inodes f.fid with
    | none => none
    | some c => some ⟨setA fs.inodes f.fid (c ++ bytes), fs.dir, fs.nextFid⟩
  else none

/-- `os.Rename(old, new)`: move the directory binding; open handles keep
their stale `Name()`. -/
def FS.rename (fs : FS) (old new : List Nat) : Option FS :=
  match lookupA fs.dir old with
  | none => none
  | some i => some ⟨fs.inodes, setA (removeA fs.dir old) new i, fs.nextFid⟩

/-- `os.Remove(path)`: unlink the path (the inode survives for open handles). -/
def FS.remove (fs : FS) (path : List Nat) : FS :=
  ⟨fs.inodes, removeA fs.dir path, fs.nextFid⟩

/-- Byte-list prefix test (own definition, used for glob matching). -/
def startsWith : List Nat → List Nat → Bool
  | [], _ => true
  | _ :: _, [] => false
  | p :: ps, x :: xs => p = x && startsWith ps xs

/-- `os.RemoveAll(dir)`: drop every binding under `dir`. -/
def FS.removeAll (fs : FS) (dirPath : List Nat) : FS :=
  ⟨fs.inodes,
   fs.dir.filter (fun p => ¬ (startsWith (dirPath ++ [47]) p.1 || p.1 = dirPath)),
   fs.nextFid⟩

/-- The ASCII bytes of `"segment-"`. -/
def segMarker : List Nat := [115, 101, 103, 109, 101, 110, 116, 45]

/-- `filepath.Glob(filepath.Join(dir, "segment-*"))`: every bound path of
the form `dir ++ "/segment-" ++ suffix` with no path separator in the
suffix. -/
def FS.glob (fs : FS) (dirPath : List Nat) : List (List Nat) :=
  (fs.dir.map (fun p => p.1)).filter (fun path =>
    startsWith (dirPath ++ 47 :: segMarker) path &&
    ((path.drop (dirPath.length + 1 + segMarker.length)).all (fun c => c ≠ 47)))

/-- Lexicographic byte-string comparison, Go's `files[i] < files[j]`. -/
def lexLt : List Nat → List Nat → Bool
  | [], [] => false
  | [], _ :: _ => true
  | _ :: _, [] => false
  | a :: as, b :: bs => if a < b then true else if b < a then false else lexLt as bs

/-- Insertion step of the lexicographic sort. -/
def insertSorted (x : List (Nat)) : List (List Nat) → List (List Nat)
  | [] => [x]
  | y :: ys => if lexLt x y then x :: y :: ys else y :: insertSorted x ys

/-- `sort.Slice(files, func(i,j) { return files[i] < files[j] })`. -/
def sortPaths : List (List Nat) → List (List Nat)
  | [] => []
  | x :: xs => insertSorted x (sortPaths xs)

/-! ### Segment (`segment.go` variant with a per-segment index) -/

/-- Error values surfaced by the engine. -/
inductive Err where
  | notFound
  | segGet
  | wrongType
  | tooLarge
  | io
  | corrupted
deriving DecidableEq, Repr

/-- A `Segment`: append offset, open file handle, key→offset index, id. -/
structure Segment where
  offset : Int
  file : GoFile
  index : List (List Nat × Int)
  id : Int
deriving DecidableEq, Repr

/-- `Segment.SetIndex`. -/
def Segment.SetIndex (s : Segment) (key : List Nat) (val : Int) : Segment :=
  { s with index := setA s.index key val }

/-- `Segment.GetIndex`. -/
def Segment.GetIndex (s : Segment) (key : List Nat) : Option Int :=
  lookupA s.index key

/-- `Segment.Write`: append the encoded record through the handle, record
the pre-append offset in the index, advance the offset.  On a write
failure neither the index nor the offset changes. -/
def Segment.Write (s : Segment) (fs : FS) (e : entry) : Segment × FS × Option Err :=
  match FS.appendHandle fs s.file (entry.Encode e) with
  | none => (s, fs, some .io)
  | some fs' =>
    ({ s with offset := s.offset + (entry.Encode e).length,
              index := setA s.index e.key s.offset }, fs', none)

/-- `Segment.Get`: reopen the file by `s.file.Name()`, look the key up in
the index, seek to the recorded offset and `readValue` there.  The open
happens before the index lookup, as in the source. -/
def Segment.Get (s : Segment) (fs : FS) (key : List Nat) : Except Err GoVal :=
  match FS.readFile fs s.file.name with
  | none => .error .io
  | some c =>
    match lookupA s.index key with
    | none => .error .segGet
    | some pos =>
      if pos < 0 then .error .io
      else
        match readValue readerBufSize (c.drop pos.toNat) with
        | none => .error .io
        | some (v, _) => .ok v

/-- `Segment.Has`: `Get` succeeded. -/
def Segment.Has (s : Segment) (fs : FS) (key : List Nat) : Bool :=
  match Segment.Get s fs key with
  | .ok _ => true
  | .error _ => false

/-- `Segment.IsSurpassed(maxSize)`: `offset > maxSize.Bytes()`. -/
def Segment.IsSurpassed (s : Segment) (maxSize : MemoryUnit) : Bool :=
  decide (MemoryUnit.Bytes maxSize < s.offset)

/-- `bufSize` (`db.go`). -/
def bufSize : Nat := 8192

/-- One pass of `segmentValsGenerator`'s loop over the remaining bytes:
read the 4-byte size, `in.Read` a record of that many bytes (a short read
is `corrupted`), decode it, continue after it.  `none` models an error on
the generator channel (short read, or a `Decode` panic); the fuel only
bounds the recursion and is chosen large enough at the call site. -/
def iterateFrom : Nat → List Nat → Option (List entry)
  | 0, _ => none
  | _ + 1, [] => some []
  | fuel + 1, b :: bs =>
    if (b :: bs).length < 4 then none
    else
      let size := leRead 4 (b :: bs)
      let n := min size (min bufSize (b :: bs).length)
      if n ≠ size then none
      else
        match entry.Decode ((b :: bs).take size) with
        | none => none
        | some e =>
          match iterateFrom fuel ((b :: bs).drop size) with
          | none => none
          | some es => some (e :: es)

/-- `segmentValsGenerator(seg)`: reopen `seg.file.Name()` and stream the
decoded records; `none` is an error on the channel. -/
def segmentVals (fs : FS) (s : Segment) : Option (List entry) :=
  match FS.readFile fs s.file.name with
  | none => none
  | some c => iterateFrom (c.length + 1) c

/-! ### Db (`db.go` of the typed, segmented engine) -/

/-- The database: max segment size, output directory, segment list
(oldest first, the last element is active), last assigned id, merge
threshold, and the `open` flag.  The writer channel is modelled by
running `putHandler` synchronously (the Go writer loop is the only
consumer and serializes all appends). -/
structure Db where
  maxSegmentSize : MemoryUnit
  outDir : List Nat
  segments : List Segment
  lastSegmentId : Int
  segmentMergeThreshold : Int
  openFlag : Bool
deriving DecidableEq, Repr

/-- `Db.curSegment`: the last segment, or `nil` when the list is empty. -/
def Db.curSegment (db : Db) : Option Segment :=
  db.segments.getLast?

/-- Replace the active (last) segment. -/
def Db.setCur (db : Db) (s : Segment) : Db :=
  { db with segments := db.segments.dropLast ++ [s] }

/-- Decimal digits of a natural number, as ASCII bytes
(`fmt.Sprintf("segment-%d", id)`; ids are never negative in any
reachable state, `Int.toNat` mirrors `%d` on those). -/
def decDigits (n : Nat) : List Nat := (Nat.toDigits 10 n).map Char.toNat

/-- `filepath.Join(dir, fmt.Sprintf("segment-%d", id))`. -/
def segPathName (dir : List Nat) (id : Int) : List Nat :=
  dir ++ 47 :: segMarker ++ decDigits id.toNat

/-- ASCII digit test, for the `\d+` of the id regex. -/
def isDigitB (c : Nat) : Bool := 48 ≤ c && c ≤ 57

/-- Numeric value of a digit string (`strconv.Atoi` on the capture). -/
def digitsVal (l : List Nat) : Nat := l.foldl (fun a c => a * 10 + (c - 48)) 0

/-- Leftmost match of `segment-(\d+)` in a byte string: the digit run
after the first occurrence of `segment-` that is followed by a digit. -/
def findSegmentNum : List Nat → Option Nat
  | [] => none
  | c :: t =>
    if startsWith segMarker (c :: t) then
      let ds := ((c :: t).drop segMarker.length).takeWhile isDigitB
      if ds.isEmpty then findSegmentNum t else some (digitsVal ds)
    else findSegmentNum t

/-- `Db.getSegmentId(path)` (`db.go`): parse the id out of the filename. -/
def Db.getSegmentId (path : List Nat) : Option Int :=
  (findSegmentNum path).map Int.ofNat

/-- `Db.initNewSegment`: open (create or reuse) `segment-<curId+1>` with
`O_APPEND|O_WRONLY|O_CREATE` and append a fresh `Segment` with offset 0 to
the list.  The asynchronous `go db.mergeOldSegments()` trigger is modelled
as the separate operation `Db.mergeOldSegments`; closing the previous
active handle has no effect in the model (reads reopen by name). -/
def Db.initNewSegment (db : Db) (fs : FS) : Db × FS :=
  let oldId : Int :=
    match db.curSegment with
    | none => -1
    | some s => s.id
  let newId := oldId + 1
  let (f, fs') := FS.openAppendCreate fs (segPathName db.outDir newId)
  ({ db with segments := db.segments ++ [⟨0, f, [], newId⟩] }, fs')

/-- `Db.recoverSegment(path)`: parse the id, open the file read-only, and
replay its records, setting the index to the pre-read offset and advancing
the offset by `e.Size().Bytes()`.  `none` models a returned error. -/
def Db.recoverSegment (fs : FS) (path : List Nat) : Option Segment :=
  match Db.getSegmentId path with
  | none => none
  | some id =>
    match lookupA fs.dir path with
    | none => none
    | some fid =>
      let s0 : Segment := ⟨0, ⟨fid, path, false⟩, [], id⟩
      match segmentVals fs s0 with
      | none => none
      | some es =>
        some (es.foldl (fun s e =>
          { s with index := setA s.index e.key s.offset,
                   offset := s.offset + MemoryUnit.Bytes (entry.Size e) }) s0)

/-- `Db.recover`: glob `segment-*`, sort lexicographically, recover each
file in that order appending it to the segment list and overwriting
`lastSegmentId` with its id; with no files, create `segment-0`.  (The
non-last segments are closed; handle closing has no model effect.) -/
def Db.recover (db : Db) (fs : FS) : Option (Db × FS) :=
  let files := FS.glob fs db.outDir
  if files.isEmpty then some (db.initNewSegment fs)
  else
    (sortPaths files).foldl
      (fun acc path =>
        match acc with
        | none => none
        | some (db', f) =>
          match Db.recoverSegment f path with
          | none => none
          | some seg =>
            some ({ db' with segments := db'.segments ++ [seg],
                             lastSegmentId := seg.id }, f))
      (some (db, fs))

/-- `NewDb(dir, size)`: fresh `Db` value, then `recover`.  (`os.MkdirAll`
has no effect in the flat file-system model; the write loop is modelled
synchronously.) -/
def NewDb (dir : List Nat) (size : MemoryUnit) (fs : FS) : Option (Db × FS) :=
  Db.recover ⟨size, dir, [], 0, 10, true⟩ fs

/-- `Db.putHandler`: reject when `maxSegmentSize < e.Size()`; rotate when
the active segment `IsSurpassed(maxSegmentSize - e.Size())`; then write to
the active segment. -/
def Db.putHandler (db : Db) (fs : FS) (e : entry) : Db × FS × Option Err :=
  if db.maxSegmentSize < entry.Size e then (db, fs, some .tooLarge)
  else
    match db.curSegment with
    | none => (db, fs, some .io)
    | some cur =>
      let p :=
        if cur.IsSurpassed (db.maxSegmentSize - entry.Size e)
        then db.initNewSegment fs
        else (db, fs)
      match p.1.curSegment with
      | none => (p.1, p.2, some .io)
      | some cur1 =>
        let r := Segment.Write cur1 p.2 e
        (p.1.setCur r.1, r.2.1, r.2.2)

/-- `Db.putUnknown`: enqueue on the writer channel and wait; the single
writer runs `putHandler` under the merge mutex — serialized, so modelled
as a direct call. -/
def Db.putUnknown (db : Db) (fs : FS) (e : entry) : Db × FS × Option Err :=
  db.putHandler fs e

/-- `Db.PutString`. -/
def Db.PutString (db : Db) (fs : FS) (key value : List Nat) : Db × FS × Option Err :=
  db.putUnknown fs ⟨key, .str value, Str⟩

/-- `Db.PutInt64`. -/
def Db.PutInt64 (db : Db) (fs : FS) (key : List Nat) (n : Int) : Db × FS × Option Err :=
  db.putUnknown fs ⟨key, .int64 n, IntTag⟩

/-- The loop of `Db.getUnknown` over the reversed segment list: first
successful `Segment.Get` wins; any error means "try the next (older)
segment".  The file-system state is threaded to record that the reads
leave it unchanged. -/
def getFold : List Segment → FS → List Nat → FS × Except Err GoVal
  | [], fs, _ => (fs, .error .notFound)
  | s :: rest, fs, key =>
    match Segment.Get s fs key with
    | .ok v => (fs, .ok v)
    | .error _ => getFold rest fs key

/-- `Db.getUnknown`: search segments from newest (last) to oldest. -/
def Db.getUnknown (db : Db) (fs : FS) (key : List Nat) : FS × Except Err GoVal :=
  getFold db.segments.reverse fs key

/-- `Db.GetString`: `getUnknown`, then the `.(string)` assertion
(`"value is not a string"` becomes `Err.wrongType`). -/
def Db.GetString (db : Db) (fs : FS) (key : List Nat) : FS × Except Err (List Nat) :=
  match db.getUnknown fs key with
  | (fs', .error e) => (fs', .error e)
  | (fs', .ok (.str s)) => (fs', .ok s)
  | (fs', .ok (.int64 _)) => (fs', .error .wrongType)

/-- `Db.GetInt64`: `getUnknown`, then the `.(int64)` assertion. -/
def Db.GetInt64 (db : Db) (fs : FS) (key : List Nat) : FS × Except Err Int :=
  match db.getUnknown fs key with
  | (fs', .error e) => (fs', .error e)
  | (fs', .ok (.int64 n)) => (fs', .ok n)
  | (fs', .ok (.str _)) => (fs', .error .wrongType)

/-- The ASCII bytes of `"shadow"`. -/
def shadowName : List Nat := [115, 104, 97, 100, 111, 119]

/-- `Db.mergeOldSegments` (`db.go` lines 202-261): collect the latest
record per key from every non-active segment (skipping keys the active
segment `Has`), put them into a shadow database under `outDir/shadow`,
rename each shadow segment file to `segment-(lastSegmentId+1)` advancing
the counter, replace the segment list with the shadow segments followed by
the active one, delete the old files, and remove the shadow directory.
Go iterates the `vals` map in unspecified order; the model iterates in
first-insertion order.  `none` models any error return. -/
def Db.mergeOldSegments (db : Db) (fs : FS) : Option (Db × FS) :=
  match db.curSegment with
  | none => none
  | some cur =>
    let toMerge := db.segments.dropLast
    let collected :=
      toMerge.foldl
        (fun acc seg =>
          match acc with
          | none => none
          | some m =>
            match segmentVals fs seg with
            | none => none
            | some es =>
              some (es.foldl
                (fun m' e => if Segment.Has cur fs e.key then m' else setA m' e.key e)
                m))
        (some ([] : List (List Nat × entry)))
    match collected with
    | none => none
    | some vals =>
      match NewDb (db.outDir ++ 47 :: shadowName) db.maxSegmentSize fs with
      | none => none
      | some (sh0, fs1) =>
        let afterPuts :=
          vals.foldl
            (fun acc kv =>
              match acc with
              | none => none
              | some (sh, f) =>
                match Db.putUnknown sh f kv.2 with
                | (sh', f', none) => some (sh', f')
                | (_, _, some _) => none)
            (some (sh0, fs1))
        match afterPuts with
        | none => none
        | some (sh, fs2) =>
          let afterRenames :=
            sh.segments.foldl
              (fun acc seg =>
                match acc with
                | none => none
                | some (lastId, f) =>
                  match FS.rename f seg.file.name (segPathName db.outDir (lastId + 1)) with
                  | none => none
                  | some f' => some (lastId + 1, f'))
              (some (db.lastSegmentId, fs2))
          match afterRenames with
          | none => none
          | some (lastId', fs3) =>
            let db' := { db with segments := sh.segments ++ [cur],
                                 lastSegmentId := lastId' }
            let fs4 := toMerge.foldl (fun f seg => FS.remove f seg.file.name) fs3
            some (db', FS.removeAll fs4 (db.outDir ++ 47 :: shadowName))

/-- `Db.Close`: clear the `open` flag and close the active segment's
handle (it becomes non-writable; reads reopen by name and still work). -/
def Db.Close (db : Db) : Option Db :=
  match db.curSegment with
  | none => none
  | some cur =>
    some { db.setCur { cur with file := { cur.file with writable := false } } with
             openFlag := false }

/-! ### General size lemma -/

theorem encode_length_general (e : entry) :
    (entry.Encode e).length =
      e.key.length + (if e.valueType = IntTag then 8 else (strVal e.value).length) + 13 := by
  by_cases h : e.valueType = IntTag <;>
    · simp [entry.Encode, h, lePut_length]
      omega

theorem size_eq_encode_mul (e : entry) :
    entry.Size e = (((entry.Encode e).length * 8 : Nat) : Int) := by
  rw [encode_length_general]
  by_cases h : e.valueType = IntTag <;> simp [entry.Size, h] <;> ring

/-! ### Claim theorems -/

/-- C4: for every entry whose type tag matches its value's concrete form
(tag `Str` with a string value of length `< 2^32`, or tag `Int` with a
signed 64-bit integer value, negative ones included) and whose key is
shorter than `2^32`, `Decode` applied to `Encode` restores the key, the
value and the type tag exactly. -/
theorem C4_encode_decode_roundtrip (e : entry) (hk : e.key.length < 2 ^ 32)
    (h : (e.valueType = Str ∧ ∃ s, e.value = GoVal.str s ∧ s.length < 2 ^ 32) ∨
         (e.valueType = IntTag ∧ ∃ n, e.value = GoVal.int64 n ∧
            -(2 ^ 63) ≤ n ∧ n < 2 ^ 63)) :
    entry.Decode (entry.Encode e) = some e := by
  rcases h with ⟨ht, s, hv, hs⟩ | ⟨ht, n, hv, h1, h2⟩
  · obtain ⟨k, v, t⟩ := e
    simp only at ht hv
    subst ht hv
    exact decode_encode_str k s hk hs
  · obtain ⟨k, v, t⟩ := e
    simp only at ht hv
    subst ht hv
    exact decode_encode_int k n hk h1 h2

/-- C4 witness: the spec's own example `entry("key", -123, int64)`
round-trips. -/
theorem C4_encode_decode_roundtrip_witness :
    entry.Decode (entry.Encode ⟨[107, 101, 121], .int64 (-123), IntTag⟩) =
      some ⟨[107, 101, 121], .int64 (-123), IntTag⟩ :=
  C4_encode_decode_roundtrip ⟨[107, 101, 121], .int64 (-123), IntTag⟩ (by decide)
    (Or.inr ⟨rfl, -123, rfl, by decide, by decide⟩)

/-- C5: `Put` (via the writer's `putHandler`) fails with `RecordTooLarge`
exactly when the record's encoded size exceeds `maxSegmentSize` — the code
compares `entry.Size` in `MemoryUnit` ticks, which equals the encoded byte
length times 8 (`size_eq_encode_mul`), so a record of encoded size equal
to `maxSegmentSize` is accepted — and when it so fails the database and
every file, offset and index are unchanged.  Stated for both typed entry
points. -/
theorem C5_record_too_large (db : Db) (fs : FS) (key value : List Nat) (n : Int) :
    ((db.PutString fs key value).2.2 = some Err.tooLarge ↔
      db.maxSegmentSize < (((entry.Encode ⟨key, .str value, Str⟩).length * 8 : Nat) : Int)) ∧
    ((db.PutString fs key value).2.2 = some Err.tooLarge →
      (db.PutString fs key value).1 = db ∧ (db.PutString fs key value).2.1 = fs) ∧
    ((db.PutInt64 fs key n).2.2 = some Err.tooLarge ↔
      db.maxSegmentSize < (((entry.Encode ⟨key, .int64 n, IntTag⟩).length * 8 : Nat) : Int)) ∧
    ((db.PutInt64 fs key n).2.2 = some Err.tooLarge →
      (db.PutInt64 fs key n).1 = db ∧ (db.PutInt64 fs key n).2.1 = fs) := by
  have herr : ∀ (e : entry),
      ((db.putHandler fs e).2.2 = some Err.tooLarge ↔ db.maxSegmentSize < entry.Size e) ∧
      (db.maxSegmentSize < entry.Size e →
        (db.putHandler fs e).1 = db ∧ (db.putHandler fs e).2.1 = fs) := by
    intro e
    unfold Db.putHandler
    by_cases h : db.maxSegmentSize < entry.Size e
    · simp [h]
    · rw [if_neg h]
      refine ⟨?_, fun hc => absurd hc h⟩
      split
      · exact iff_of_false (by simp) h
      · split
        all_goals
          dsimp only
          split
          · exact iff_of_false (by simp) h
          · unfold Segment.Write
            dsimp only
            split
            · exact iff_of_false (by simp) h
            · exact iff_of_false (by simp) h
  have hs := herr ⟨key, .str value, Str⟩
  have hi := herr ⟨key, .int64 n, IntTag⟩
  rw [size_eq_encode_mul] at hs hi
  refine ⟨hs.1, fun hc => hs.2 (hs.1.mp hc), hi.1, fun hc => hi.2 (hi.1.mp hc)⟩

/-- C6 counterexample: for the record `entry("key", 123, int64)` the claim
says `readValue` leaves the stream `kl+vl+13 = 24` bytes past the record
start, i.e. with nothing left of the 24-byte record; in fact the `Int`
branch only `Peek`s the eight value bytes, so they are still in the
stream. -/
theorem C6_counterexample :
    readValue readerBufSize (entry.Encode ⟨[107, 101, 121], .int64 123, IntTag⟩) =
      some (.int64 123, [123, 0, 0, 0, 0, 0, 0, 0]) ∧
    ([123, 0, 0, 0, 0, 0, 0, 0] : List Nat) ≠ [] := by
  exact ⟨by decide, by decide⟩

/-- C6 amended: positioned at the start of a well-formed record,
`readValue` returns the stored typed value for both value types, under
the reader-buffer bound: for a string value whose record fits in the
4096-byte `bufio` buffer the stream is left `kl+vl+13` bytes past the
record start (immediately after the value bytes); for an int64 value the
eight value bytes are only peeked, so the stream is left `kl+13` bytes
past the record start, with the value bytes still unread; and for a
string record longer than the buffer the single `in.Read` is clamped to
the buffered window, the `n != valSize` check fires, and `readValue`
errors even though the bytes exist in the stream. -/
theorem C6_read_value_positions (key sval rest : List Nat) (n : Int)
    (h1 : -(2 ^ 63) ≤ n) (h2 : n < 2 ^ 63)
    (hk21 : key.length + 21 ≤ readerBufSize) :
    (key.length + 13 + sval.length ≤ readerBufSize →
      readValue readerBufSize (entry.Encode ⟨key, .str sval, Str⟩ ++ rest) =
        some (.str sval, rest)) ∧
    readValue readerBufSize (entry.Encode ⟨key, .int64 n, IntTag⟩ ++ rest) =
      some (.int64 n, lePut 8 (uint64OfInt n) ++ rest) ∧
    (readerBufSize < key.length + 13 + sval.length → sval.length < 2 ^ 32 →
      readValue readerBufSize (entry.Encode ⟨key, .str sval, Str⟩ ++ rest) = none) :=
  ⟨fun hbuf => readValue_encode_str key sval rest hbuf,
   readValue_encode_int key rest n hk21 h1 h2,
   fun hbig hv => readValue_encode_str_overflow key sval rest hk21 hbig hv⟩

/-- C6 amended witness: the spec's example `entry("key", 123, int64)`
followed by one extra byte: the value is returned and the eight value
bytes plus the extra byte remain in the stream. -/
theorem C6_read_value_positions_witness :
    readValue readerBufSize (entry.Encode ⟨[107, 101, 121], .int64 123, IntTag⟩ ++ [9]) =
      some (.int64 123, lePut 8 (uint64OfInt 123) ++ [9]) :=
  (C6_read_value_positions [107, 101, 121] [] [9] 123 (by decide) (by decide)
    (by decide)).2.1

/-- The inflated-size counterexample input for C7: the declared total size
(first four bytes, little endian) is 255, but only 15 bytes are present. -/
def c7Inflated : List Nat := [255, 0, 0, 0, 1, 0, 0, 0, 107, 0, 1, 0, 0, 0, 118]

/-- The unknown-tag counterexample input for C7: a well-sized record whose
type tag byte is 7 (neither 0 nor 1). -/
def c7Tag7 : List Nat := [15, 0, 0, 0, 1, 0, 0, 0, 107, 7, 1, 0, 0, 0, 118]

/-- C7 counterexample: `Decode` succeeds on an input whose declared total
size (255) exceeds the input length (15), and succeeds on an input whose
type tag byte is 7 — decoding it as a string — contradicting both failure
conditions of the claim. -/
theorem C7_counterexample :
    leRead 4 c7Inflated = 255 ∧ c7Inflated.length = 15 ∧
    entry.Decode c7Inflated = some ⟨[107], .str [118], Str⟩ ∧
    entry.Decode c7Tag7 = some ⟨[107], .str [118], Str⟩ ∧
    (7 : Nat) ≠ Str ∧ (7 : Nat) ≠ IntTag := by
  exact ⟨by decide, by decide, by decide, by decide, by decide, by decide⟩

/-- C7 amended: `Decode` never validates the declared total size — the
first four bytes are read into an unused buffer, so they cannot influence
the result at all — and never rejects an unknown type tag: any tag other
than 1 takes the string branch, and decoding then succeeds whenever the
input is long enough for the fields actually read (`kl + 13 + vl` bytes).
`Decode` fails only on inputs too short for those fields. -/
theorem C7_decode_no_validation :
    (∀ a b c d a' b' c' d' : Nat, ∀ rest : List Nat,
      entry.Decode (a :: b :: c :: d :: rest) =
        entry.Decode (a' :: b' :: c' :: d' :: rest)) ∧
    (∀ input : List Nat,
      (input.drop (leRead 4 (input.drop 4) + 8)).headD 0 ≠ IntTag →
      leRead 4 (input.drop 4) + 13 +
        leRead 4 (input.drop (leRead 4 (input.drop 4) + 9)) ≤ input.length →
      entry.Decode input =
        some ⟨(input.drop 8).take (leRead 4 (input.drop 4)),
          GoVal.str ((input.drop (leRead 4 (input.drop 4) + 13)).take
            (leRead 4 (input.drop (leRead 4 (input.drop 4) + 9)))), Str⟩) := by
  constructor
  · intro a b c d a' b' c' d' rest
    rfl
  · intro input htag hlen
    simp only [entry.Decode]
    rw [if_neg (by omega), if_neg (by omega), if_neg (by omega), if_neg (by omega),
      if_neg (by omega), if_neg htag, if_neg (by omega)]

/-- C7 amended witness: on the unknown-tag input, the theorem computes the
decoded record, matching a direct evaluation. -/
theorem C7_decode_no_validation_witness :
    entry.Decode c7Tag7 =
      some ⟨(c7Tag7.drop 8).take (leRead 4 (c7Tag7.drop 4)),
        GoVal.str ((c7Tag7.drop (leRead 4 (c7Tag7.drop 4) + 13)).take
          (leRead 4 (c7Tag7.drop (leRead 4 (c7Tag7.drop 4) + 9)))), Str⟩ :=
  C7_decode_no_validation.2 c7Tag7 (by decide) (by decide)

theorem getFold_fs_eq (l : List Segment) (fs : FS) (k : List Nat) :
    (getFold l fs k).1 = fs := by
  induction l with
  | nil => rfl
  | cons s rest ih =>
    unfold getFold
    cases Segment.Get s fs k with
    | ok v => rfl
    | error e => exact ih

/-- C10: `GetString` and `GetInt64` are read-only: for every database
state, file system and key — whatever the outcome — the file system they
return is the one they were given, and they produce no new `Db` at all
(the embedding returns only the threaded file system and the result,
because the Go bodies assign to no field of `Db` or of any `Segment`;
every file they open is opened for reading). -/
theorem C10_get_read_only (db : Db) (fs : FS) (key : List Nat) :
    (db.GetString fs key).1 = fs ∧ (db.GetInt64 fs key).1 = fs := by
  rcases hg : getFold db.segments.reverse fs key with ⟨fs', r⟩
  have hfs : fs' = fs := by
    have h := getFold_fs_eq db.segments.reverse fs key
    rw [hg] at h
    exact h
  subst hfs
  unfold Db.GetString Db.GetInt64 Db.getUnknown
  rw [hg]
  rcases r with e | v
  · exact ⟨rfl, rfl⟩
  · rcases v with s | n
    · exact ⟨rfl, rfl⟩
    · exact ⟨rfl, rfl⟩

/-! ### C3: typed Get against the spec-side description -/

/-- Spec-side definition (from the spec's words, for the refinement in
C3): search the given segments in order — called with the reversed list,
so newest first — and return the stored value of the first segment whose
index contains the key, read from that segment's file at the indexed
offset. -/
def specNewestValue : List Segment → FS → List Nat → Option GoVal
  | [], _, _ => none
  | s :: rest, fs, k =>
    match lookupA s.index k with
    | some off =>
      (FS.readFile fs s.file.name).bind fun c =>
        (readValue readerBufSize (c.drop off.toNat)).map Prod.fst
    | none => specNewestValue rest fs k

/-- Well-formedness of one segment: its file is reachable under its
recorded name and every index entry points at a nonnegative offset where
`readValue` succeeds.  Every state produced by recovery or by successful
writes satisfies this; post-merge states violate it (see C1). -/
def Segment.wfB (s : Segment) (fs : FS) : Bool :=
  match FS.readFile fs s.file.name with
  | none => false
  | some c =>
    s.index.all fun kv =>
      decide (0 ≤ kv.2) && (readValue readerBufSize (c.drop kv.2.toNat)).isSome

/-- Well-formedness of a database: every segment is well-formed. -/
def Db.wfB (db : Db) (fs : FS) : Bool :=
  db.segments.all fun s => s.wfB fs

theorem lookupA_mem {α β : Type} [DecidableEq α] (m : List (α × β)) (a : α) (b : β)
    (h : lookupA m a = some b) : (a, b) ∈ m := by
  induction m with
  | nil => cases h
  | cons p t ih =>
    obtain ⟨k, v⟩ := p
    unfold lookupA at h
    by_cases hk : k = a
    · rw [if_pos hk] at h
      cases h
      subst hk
      exact List.mem_cons_self _ _
    · rw [if_neg hk] at h
      exact List.mem_cons_of_mem _ (ih h)

theorem getFold_spec (l : List Segment) (fs : FS) (k : List Nat)
    (h : ∀ s ∈ l, Segment.wfB s fs = true) :
    (getFold l fs k).2 =
      (match specNewestValue l fs k with
       | none => Except.error Err.notFound
       | some v => Except.ok v) := by
  induction l with
  | nil => rfl
  | cons s rest ih =>
    have hs := h s (List.mem_cons_self _ _)
    have hrest := fun x hx => h x (List.mem_cons_of_mem _ hx)
    unfold Segment.wfB at hs
    rcases hc : FS.readFile fs s.file.name with _ | c
    · rw [hc] at hs
      cases hs
    · rw [hc] at hs
      rcases hl : lookupA s.index k with _ | off
      · have hget : Segment.Get s fs k = Except.error Err.segGet := by
          unfold Segment.Get
          rw [hc, hl]
        unfold getFold specNewestValue
        rw [hget, hl]
        exact ih hrest
      · have hmem := lookupA_mem s.index k off hl
        have hkv := (List.all_eq_true.mp hs) _ hmem
        simp only [Bool.and_eq_true, decide_eq_true_eq, Option.isSome_iff_exists] at hkv
        obtain ⟨hpos, ⟨⟨v, r⟩, hr⟩⟩ := hkv
        have hget : Segment.Get s fs k = Except.ok v := by
          unfold Segment.Get
          rw [hc, hl]
          simp only [hr, if_neg (show ¬ off < 0 from by omega)]
        unfold getFold specNewestValue
        rw [hget, hl, hc]
        simp [hr]

/-- C3: under well-formedness (`Db.wfB`), `GetString`/`GetInt64` return
exactly what the spec describes: the value of the first segment, searched
from newest (last in the list) to oldest, whose index contains the key —
`WrongType` when that value's tag disagrees with the accessor, `NotFound`
when no segment contains the key. -/
theorem C3_get_typed (db : Db) (fs : FS) (key : List Nat) (h : Db.wfB db fs = true) :
    (db.GetString fs key).2 =
      (match specNewestValue db.segments.reverse fs key with
       | none => Except.error Err.notFound
       | some (GoVal.str s) => Except.ok s
       | some (GoVal.int64 _) => Except.error Err.wrongType) ∧
    (db.GetInt64 fs key).2 =
      (match specNewestValue db.segments.reverse fs key with
       | none => Except.error Err.notFound
       | some (GoVal.int64 n) => Except.ok n
       | some (GoVal.str _) => Except.error Err.wrongType) := by
  have hall : ∀ s ∈ db.segments.reverse, Segment.wfB s fs = true := by
    intro s hsm
    exact (List.all_eq_true.mp h) s (List.mem_reverse.mp hsm)
  have hspec := getFold_spec db.segments.reverse fs key hall
  rcases hg : getFold db.segments.reverse fs key with ⟨fs', r⟩
  rw [hg] at hspec
  simp only at hspec
  unfold Db.GetString Db.GetInt64 Db.getUnknown
  rw [hg]
  rcases hsv : specNewestValue db.segments.reverse fs key with _ | v
  · rw [hsv] at hspec
    simp only at hspec
    subst hspec
    exact ⟨rfl, rfl⟩
  · rw [hsv] at hspec
    simp only at hspec
    subst hspec
    rcases v with s | n
    · exact ⟨rfl, rfl⟩
    · exact ⟨rfl, rfl⟩

/-- The witness database for C3: one segment holding the record
`("1" ↦ "val1")` at offset 0. -/
def c3Entry : entry := ⟨[49], .str [118, 97, 108, 49], Str⟩

/-- The witness file system for C3. -/
def c3Fs : FS :=
  ⟨[(0, entry.Encode c3Entry)], [(segPathName [100, 98] 0, 0)], 1⟩

/-- The witness database value for C3. -/
def c3Db : Db :=
  ⟨18 * Byte, [100, 98],
   [⟨18, ⟨0, segPathName [100, 98] 0, true⟩, [([49], 0)], 0⟩], 0, 10, true⟩

/-- C3 witness: on a concrete well-formed one-segment database,
`GetString` finds the string and `GetInt64` reports `WrongType`. -/
theorem C3_get_typed_witness :
    (c3Db.GetString c3Fs [49]).2 = Except.ok [118, 97, 108, 49] ∧
    (c3Db.GetInt64 c3Fs [49]).2 = Except.error Err.wrongType := by
  have h := C3_get_typed c3Db c3Fs [49] (by decide)
  exact ⟨h.1.trans (by rfl), h.2.trans (by rfl)⟩

/-- C9 amended: the empty key is accepted at the public interface.  On a
freshly opened database (NewDb over an empty directory), `PutString("", V)`
succeeds for every value whose record fits in `maxSegmentSize`, and
`GetString("")` then returns `V` provided the record also fits in the
4096-byte `bufio` read buffer (`V.length + 13 ≤ readerBufSize`): the codec
encodes `kl = 0` and the index stores the empty key like any other.  For
larger values the put still succeeds but the clamped single read inside
`readValue` errors and the get reports `NotFound` (see the
counterexample). -/
theorem C9_empty_key (dir V : List Nat) (max : MemoryUnit)
    (hbuf : V.length + 13 ≤ readerBufSize)
    (hfit : (((V.length + 13) * 8 : Nat) : Int) ≤ max) :
    ∃ db0 fs0 db1 fs1,
      NewDb dir max FS.empty = some (db0, fs0) ∧
      db0.PutString fs0 [] V = (db1, fs1, none) ∧
      (db1.GetString fs1 []).2 = Except.ok V := by
  have hSizeEq : entry.Size ⟨[], .str V, Str⟩ = (((V.length + 13) * 8 : Nat) : Int) := by
    simp [entry.Size, strVal, Str, IntTag]
  refine ⟨⟨max, dir, [⟨0, ⟨0, segPathName dir 0, true⟩, [], 0⟩], 0, 10, true⟩,
    ⟨[(0, [])], [(segPathName dir 0, 0)], 1⟩,
    ⟨max, dir,
      [⟨(entry.Encode ⟨[], .str V, Str⟩).length, ⟨0, segPathName dir 0, true⟩,
        [([], 0)], 0⟩], 0, 10, true⟩,
    ⟨[(0, entry.Encode ⟨[], .str V, Str⟩)], [(segPathName dir 0, 0)], 1⟩,
    rfl, ?_, ?_⟩
  · have hSle : entry.Size ⟨[], .str V, Str⟩ ≤ max := by
      rw [hSizeEq]
      exact hfit
    have hsz : ¬ (max < entry.Size ⟨[], .str V, Str⟩) := not_lt.mpr hSle
    have hsur :
        Segment.IsSurpassed ⟨0, ⟨0, segPathName dir 0, true⟩, [], 0⟩
          (max - entry.Size ⟨[], .str V, Str⟩) = false := by
      unfold Segment.IsSurpassed
      simp only [decide_eq_false_iff_not, not_lt]
      exact Int.tdiv_nonneg (Int.sub_nonneg.mpr hSle) (by norm_num)
    have hcur : Db.curSegment
        ⟨max, dir, [⟨0, ⟨0, segPathName dir 0, true⟩, [], 0⟩], 0, 10, true⟩ =
        some ⟨0, ⟨0, segPathName dir 0, true⟩, [], 0⟩ := rfl
    unfold Db.PutString Db.putUnknown Db.putHandler
    rw [if_neg hsz]
    simp only [hcur]
    rw [if_neg (by simp [hsur])]
    simp [Segment.Write, FS.appendHandle, lookupA, setA, Db.setCur, Db.curSegment, hcur]
  · have hrv : readValue readerBufSize (entry.Encode ⟨[], .str V, Str⟩) =
        some (.str V, []) := by
      have h := readValue_encode_str [] V [] (by simp only [List.length_nil]; omega)
      rwa [List.append_nil] at h
    have hget :
        Segment.Get
          ⟨(entry.Encode ⟨[], .str V, Str⟩).length, ⟨0, segPathName dir 0, true⟩,
            [([], 0)], 0⟩
          ⟨[(0, entry.Encode ⟨[], .str V, Str⟩)], [(segPathName dir 0, 0)], 1⟩
          [] = Except.ok (.str V) := by
      unfold Segment.Get FS.readFile
      simp [lookupA, hrv]
    unfold Db.GetString Db.getUnknown
    have hrev : (⟨max, dir,
        [⟨(entry.Encode ⟨[], .str V, Str⟩).length, ⟨0, segPathName dir 0, true⟩,
          [([], 0)], 0⟩], 0, 10, true⟩ : Db).segments.reverse =
        [⟨(entry.Encode ⟨[], .str V, Str⟩).length, ⟨0, segPathName dir 0, true⟩,
          [([], 0)], 0⟩] := rfl
    rw [hrev]
    unfold getFold
    rw [hget]

/-- C9 witness: on the directory `"db"` with `maxSegmentSize` of 18 bytes,
the empty key stores and returns the four-byte value `"val1"`. -/
theorem C9_empty_key_witness :
    ∃ db0 fs0 db1 fs1,
      NewDb [100, 98] (18 * Byte) FS.empty = some (db0, fs0) ∧
      db0.PutString fs0 [] [118, 97, 108, 49] = (db1, fs1, none) ∧
      (db1.GetString fs1 []).2 = Except.ok [118, 97, 108, 49] :=
  C9_empty_key [100, 98] [118, 97, 108, 49] (18 * Byte) (by decide) (by decide)

/-- The C9 counterexample value: 4084 bytes of `'a'`.  Its record is
`0 + 4084 + 13 = 4097` bytes — within a `4097 * Byte` segment limit, but
one byte past the 4096-byte `bufio` read buffer. -/
def c9BigVal : List Nat := List.replicate 4084 97

/-- C9 counterexample: on a freshly opened database whose segment limit
admits the 4097-byte record, `PutString("", c9BigVal)` succeeds, yet
`GetString("")` returns `NotFound` instead of the value: `Segment.Get`'s
single buffered read returns only 4083 of the 4084 value bytes, the
`n != valSize` check turns that into an error, and `getUnknown` falls
through to no other segment. -/
theorem C9_counterexample :
    ∃ db0 fs0 db1 fs1,
      NewDb [100, 98] (4097 * Byte) FS.empty = some (db0, fs0) ∧
      db0.PutString fs0 [] c9BigVal = (db1, fs1, none) ∧
      (db1.GetString fs1 []).2 = Except.error Err.notFound ∧
      (Except.error Err.notFound : Except Err (List Nat)) ≠ Except.ok c9BigVal := by
  have hlenV : c9BigVal.length = 4084 := List.length_replicate 4084 97
  have hSizeEq : entry.Size ⟨[], .str c9BigVal, Str⟩ = (32776 : Int) := by
    simp [entry.Size, strVal, Str, IntTag, hlenV]
  refine ⟨⟨4097 * Byte, [100, 98], [⟨0, ⟨0, segPathName [100, 98] 0, true⟩, [], 0⟩],
      0, 10, true⟩,
    ⟨[(0, [])], [(segPathName [100, 98] 0, 0)], 1⟩,
    ⟨4097 * Byte, [100, 98],
      [⟨(entry.Encode ⟨[], .str c9BigVal, Str⟩).length,
        ⟨0, segPathName [100, 98] 0, true⟩, [([], 0)], 0⟩], 0, 10, true⟩,
    ⟨[(0, entry.Encode ⟨[], .str c9BigVal, Str⟩)], [(segPathName [100, 98] 0, 0)], 1⟩,
    rfl, ?_, ?_, by simp⟩
  · have hSle : entry.Size ⟨[], .str c9BigVal, Str⟩ ≤ 4097 * Byte := by
      rw [hSizeEq]
      norm_num [Byte]
    have hsz : ¬ (4097 * Byte < entry.Size ⟨[], .str c9BigVal, Str⟩) := not_lt.mpr hSle
    have hsur :
        Segment.IsSurpassed ⟨0, ⟨0, segPathName [100, 98] 0, true⟩, [], 0⟩
          (4097 * Byte - entry.Size ⟨[], .str c9BigVal, Str⟩) = false := by
      unfold Segment.IsSurpassed
      simp only [decide_eq_false_iff_not, not_lt]
      exact Int.tdiv_nonneg (Int.sub_nonneg.mpr hSle) (by norm_num)
    have hcur : Db.curSegment
        ⟨4097 * Byte, [100, 98], [⟨0, ⟨0, segPathName [100, 98] 0, true⟩, [], 0⟩],
          0, 10, true⟩ =
        some ⟨0, ⟨0, segPathName [100, 98] 0, true⟩, [], 0⟩ := rfl
    unfold Db.PutString Db.putUnknown Db.putHandler
    rw [if_neg hsz]
    simp only [hcur]
    rw [if_neg (by simp [hsur])]
    simp [Segment.Write, FS.appendHandle, lookupA, setA, Db.setCur, Db.curSegment, hcur]
  · have hrv : readValue readerBufSize (entry.Encode ⟨[], .str c9BigVal, Str⟩) =
        none := by
      have h := readValue_encode_str_overflow [] c9BigVal [] (by decide)
        (by simp only [List.length_nil, hlenV]; decide)
        (by simp only [hlenV]; norm_num)
      rwa [List.append_nil] at h
    have hget :
        Segment.Get
          ⟨(entry.Encode ⟨[], .str c9BigVal, Str⟩).length,
            ⟨0, segPathName [100, 98] 0, true⟩, [([], 0)], 0⟩
          ⟨[(0, entry.Encode ⟨[], .str c9BigVal, Str⟩)], [(segPathName [100, 98] 0, 0)], 1⟩
          [] = Except.error Err.io := by
      unfold Segment.Get FS.readFile
      simp [lookupA, hrv]
    unfold Db.GetString Db.getUnknown
    have hrev : (⟨4097 * Byte, [100, 98],
        [⟨(entry.Encode ⟨[], .str c9BigVal, Str⟩).length,
          ⟨0, segPathName [100, 98] 0, true⟩, [([], 0)], 0⟩],
        0, 10, true⟩ : Db).segments.reverse =
        [⟨(entry.Encode ⟨[], .str c9BigVal, Str⟩).length,
          ⟨0, segPathName [100, 98] 0, true⟩, [([], 0)], 0⟩] := rfl
    rw [hrev]
    unfold getFold
    rw [hget]
    rfl

/-! ### Concrete end-to-end runs (for C1, C2 and C8)

All runs use the directory `"db"` and `maxSegmentSize = 18 * Byte`; every
record below is a one-byte key with a four-byte string value, encoding to
exactly 18 bytes, so each successful put after the first rotates into a
fresh segment. -/

/-- The scenario directory, `"db"`. -/
def mDir : List Nat := [100, 98]

/-- The scenario segment limit: exactly one 18-byte record per segment. -/
def mMax : MemoryUnit := 18 * Byte

/-- `"val1"`. -/
def mV1 : List Nat := [118, 97, 108, 49]

/-- `"val2"`. -/
def mV2 : List Nat := [118, 97, 108, 50]

/-- `"val3"`. -/
def mV3 : List Nat := [118, 97, 108, 51]

/-- Run one successful `PutString`; `none` if the put reported any error. -/
def putStep (key value : List Nat) (st : Db × FS) : Option (Db × FS) :=
  match st.1.PutString st.2 key value with
  | (db, fs, none) => some (db, fs)
  | (_, _, some _) => none

/-- Run `Close`. -/
def closeStep (st : Db × FS) : Option (Db × FS) :=
  (st.1.Close).map fun d => (d, st.2)

/-- Re-open the scenario database on the same directory (`NewDb`). -/
def reopenStep (st : Db × FS) : Option (Db × FS) :=
  NewDb mDir mMax st.2

/-- Run `mergeOldSegments`. -/
def mergeStep (st : Db × FS) : Option (Db × FS) :=
  st.1.mergeOldSegments st.2

/-- The spec's S2/S3 flow: open, put `"1"↦"val1"` (segment-0) and
`"2"↦"val2"` (rotates into segment-1), close, re-open. -/
def c1PreMerge : Option (Db × FS) :=
  ((((NewDb mDir mMax FS.empty).bind (putStep [49] mV1)).bind
    (putStep [50] mV2)).bind closeStep).bind reopenStep

/-- The state after a successful `mergeOldSegments` on `c1PreMerge`. -/
def c1Merged : Option (Db × FS) := c1PreMerge.bind mergeStep

/-- C1: evaluation of the merge scenario.  Before the merge both keys
read back their values.  The merge returns successfully, yet afterwards
`GetString "1"` — the key whose only record was merged — fails with
`NotFound` on the still-open database, while the merged record for `"1"`
does sit in the renamed file `segment-2`: the in-memory shadow segment
still carries the stale pre-rename `file.Name()` (`db/shadow/segment-0`),
so every read of it fails.  A live key is dropped by the merge,
contradicting the claim (and §4.5 of the spec, which the code's own
comment history supports); re-opening the database restores the key, which
shows the record was never meant to be lost. -/
theorem C1_merge_drops_live_key :
    (c1PreMerge.map fun st =>
      ((st.1.GetString st.2 [49]).2, (st.1.GetString st.2 [50]).2)) =
      some (Except.ok mV1, Except.ok mV2) ∧
    c1Merged.isSome = true ∧
    (c1Merged.map fun st =>
      ((st.1.GetString st.2 [49]).2, (st.1.GetString st.2 [50]).2)) =
      some (Except.error Err.notFound, Except.ok mV2) ∧
    (c1Merged.bind fun st => FS.readFile st.2 (segPathName mDir 2)) =
      some (entry.Encode ⟨[49], .str mV1, Str⟩) ∧
    (c1Merged.map fun st => st.1.segments.map fun s => s.file.name) =
      some [mDir ++ 47 :: shadowName ++ 47 :: segMarker ++ [48],
            segPathName mDir 1] ∧
    ((c1Merged.bind reopenStep).map fun st => (st.1.GetString st.2 [49]).2) =
      some (Except.ok mV1) := by
  exact ⟨rfl, rfl, rfl, rfl, rfl, rfl⟩

/-- The value written by the `i`-th put of the C2 run (`"v00" ++ digit`). -/
def c2Val (i : Nat) : List Nat := [118, 48, 48, 48 + i]

/-- The C2 run: `n` successive puts of key `"k"`, each filling one
segment, so put `i` lands in `segment-i`. -/
def c2Run : Nat → Option (Db × FS)
  | 0 => NewDb mDir mMax FS.empty
  | n + 1 => (c2Run n).bind (putStep [107] (c2Val n))

/-- The C2 database after 12 successful puts, `Close`, and `NewDb`. -/
def c2Reopened : Option (Db × FS) :=
  ((c2Run 12).bind closeStep).bind reopenStep

/-- C2 counterexample: twelve successful puts of the same key create
`segment-0 … segment-11`; recovery sorts the files lexicographically,
which puts `segment-10` and `segment-11` before `segment-2` — not the
numeric id order the claim asserts — making `segment-9` the recovered
active segment, so `GetString "k"` returns the value of put 9 instead of
the most recent put 11, and `lastSegmentId` is left at 9. -/
theorem C2_counterexample :
    (c2Run 12).isSome = true ∧
    (c2Reopened.map fun st => st.1.segments.map fun s => s.id) =
      some [0, 1, 10, 11, 2, 3, 4, 5, 6, 7, 8, 9] ∧
    (c2Reopened.map fun st => st.1.lastSegmentId) = some 9 ∧
    (c2Reopened.map fun st => (st.1.GetString st.2 [107]).2) =
      some (Except.ok (c2Val 9)) ∧
    c2Val 9 ≠ c2Val 11 := by
  exact ⟨rfl, rfl, rfl, rfl, by decide⟩

theorem lexLt_append_common (d a b : List Nat) :
    lexLt (d ++ a) (d ++ b) = lexLt a b := by
  induction d with
  | nil => rfl
  | cons c t ih => simp [lexLt, ih]

/-- C2 amended: recovery processes segment files in lexicographic filename
order.  That order agrees with numeric id order as long as all ids have a
single digit (ids below 10) — so durability across restart holds for such
histories, as the re-run of the three-put history shows — but for 11 or
more segments the orders diverge (see the counterexample) and the claim's
"for any number of segments" fails. -/
theorem C2_lex_order_single_digit :
    (∀ (d : List Nat) (j : Nat), j < 10 → ∀ i : Nat, i < j →
      lexLt (segPathName d (Int.ofNat i)) (segPathName d (Int.ofNat j)) = true) ∧
    ((((c2Run 3).bind closeStep).bind reopenStep).map
      (fun st => (st.1.GetString st.2 [107]).2)) = some (Except.ok (c2Val 2)) := by
  constructor
  · intro d j hj i hij
    unfold segPathName
    rw [lexLt_append_common]
    revert i hij
    revert j hj
    decide
  · exact rfl

/-- C2 amended witness: `segment-3` sorts before `segment-7`. -/
theorem C2_lex_order_single_digit_witness :
    lexLt (segPathName [100, 98] (Int.ofNat 3))
      (segPathName [100, 98] (Int.ofNat 7)) = true :=
  C2_lex_order_single_digit.1 [100, 98] 7 (by decide) 3 (by decide)

/-- The post-merge state of C1 after one more successful put, which
rotates into a new active segment. -/
def c8AfterPut : Option (Db × FS) := c1Merged.bind (putStep [51] mV3)

/-- C8 counterexample: in the post-merge state the merge has consumed id 2
(it renamed the shadow file to `segment-2` and advanced `lastSegmentId` to
2), so the claim requires the next rotation to create id 3.  The rotation
in fact computes the id as (current active id 1) + 1 = 2 — `lastSegmentId`
is never consulted — so the new active segment repeats id 2 and opens the
very `segment-2` file the merge created (with `O_APPEND`, while its
in-memory offset restarts at 0). -/
theorem C8_counterexample :
    (c1Merged.map fun st => st.1.lastSegmentId) = some 2 ∧
    (c1Merged.map fun st => (FS.readFile st.2 (segPathName mDir 2)).isSome) =
      some true ∧
    (c1Merged.map fun st => st.1.curSegment.map fun s => s.id) = some (some 1) ∧
    (c8AfterPut.map fun st => st.1.curSegment.map fun s => s.id) = some (some 2) ∧
    (c8AfterPut.map fun st => st.1.lastSegmentId) = some 2 ∧
    (c8AfterPut.map fun st => st.1.curSegment.map fun s => s.file.name) =
      some (some (segPathName mDir 2)) := by
  exact ⟨rfl, rfl, rfl, rfl, rfl, rfl⟩

/-- C8 amended: rotation appends a fresh empty segment as the new last
element of the segment list, with id equal to one plus the *current active
segment's* id — not one plus the maximum id assigned in the database's
lifetime: `lastSegmentId` is neither consulted nor updated by rotation, so
after a merge (which consumes ids by renaming shadow segments) the new id
can repeat an id the merge already used, and the new active segment then
opens that existing `segment-<id>` file. -/
theorem C8_rotation_id (db : Db) (fs : FS) (s : Segment) (h : db.curSegment = some s) :
    ∃ f, (db.initNewSegment fs).1.segments = db.segments ++ [⟨0, f, [], s.id + 1⟩] ∧
      (db.initNewSegment fs).1.curSegment = some ⟨0, f, [], s.id + 1⟩ ∧
      (db.initNewSegment fs).1.lastSegmentId = db.lastSegmentId := by
  unfold Db.initNewSegment
  rw [h]
  exact ⟨_, rfl, by simp [Db.curSegment], rfl⟩

/-- C8 amended witness: rotating the concrete one-segment database of C3
creates segment id 1 = 0 + 1 at the tail and leaves `lastSegmentId`
untouched. -/
theorem C8_rotation_id_witness :
    ∃ f, (c3Db.initNewSegment c3Fs).1.segments =
        c3Db.segments ++ [⟨0, f, [],
          (⟨18, ⟨0, segPathName [100, 98] 0, true⟩, [([49], 0)], 0⟩ : Segment).id + 1⟩] ∧
      (c3Db.initNewSegment c3Fs).1.curSegment = some ⟨0, f, [],
          (⟨18, ⟨0, segPathName [100, 98] 0, true⟩, [([49], 0)], 0⟩ : Segment).id + 1⟩ ∧
      (c3Db.initNewSegment c3Fs).1.lastSegmentId = c3Db.lastSegmentId :=
  C8_rotation_id c3Db c3Fs ⟨18, ⟨0, segPathName [100, 98] 0, true⟩, [([49], 0)], 0⟩ rfl
